import Mathlib

/-!
Verification development for the WebbDuck repository.

WebbDuck is a diffusion UI and workflow engine: a FastAPI backend with a single
GPU worker queue and a zero-build ES-module frontend.  This file gives a shallow
embedding, in Lean 4, of the parts of the system that the specification makes
claims about:

* the browser-side WebSocket bridge and event bus (`ui/core/events.js`),
* the Studio frontend form assembly and queue panel (`ui/app.js`),
* the upload resolution normalisation helper `fitResolution` (`ui/app.js`),
* the backend job queue, worker loop, cancellation and pipeline manager.

The backend Python sources (`server/app.py`, `core/worker.py`,
`core/generation.py`, `core/pipeline.py`) are not part of the repository
snapshot — only their documentation is — so those components are modelled
from the specification text; every such definition carries a doc comment
starting with `Modelled from the spec:`.  JavaScript numbers are modelled as
exact rationals (`ℚ`), `Math.round` as `⌊x + 1/2⌋`, thrown exceptions as
`Except`, and the JS `Set`/`Map` structures as lists.
-/

namespace WebbDuck

/-! ## Upload resolution normalisation (`fitResolution`, ui/app.js) -/

/-- JavaScript `Math.round`: rounds to the nearest integer, halfway cases
toward positive infinity, i.e. `⌊x + 1/2⌋`. -/
def jsRound (x : ℚ) : ℤ := ⌊x + 1 / 2⌋

/-- The `{width, height}` object returned by `fitResolution`. -/
structure FitResult where
  width : ℤ
  height : ℤ
deriving DecidableEq, Repr

/-- First stage of `fitResolution` from `ui/app.js`: if either dimension
exceeds `maxDim`, both are scaled by the smaller of the two ratios `maxDim/w`,
`maxDim/h` and rounded (`Math.round`); otherwise they are left unchanged. -/
def scaledDims (width height maxDim : ℕ) : ℚ × ℚ :=
  if (maxDim : ℚ) < (width : ℚ) ∨ (maxDim : ℚ) < (height : ℚ) then
    (((jsRound ((width : ℚ) * min ((maxDim : ℚ) / (width : ℚ)) ((maxDim : ℚ) / (height : ℚ))) : ℤ) : ℚ),
      ((jsRound ((height : ℚ) * min ((maxDim : ℚ) / (width : ℚ)) ((maxDim : ℚ) / (height : ℚ))) : ℤ) : ℚ))
  else
    ((width : ℚ), (height : ℚ))

/-- Shallow embedding of `fitResolution(width, height, maxDim)` from
`ui/app.js`: after the optional downscale, each dimension is snapped to the
nearest multiple of 8 and clamped below at 512. -/
def fitResolution (width height maxDim : ℕ) : FitResult :=
  { width := max 512 (jsRound ((scaledDims width height maxDim).1 / 8) * 8),
    height := max 512 (jsRound ((scaledDims width height maxDim).2 / 8) * 8) }

lemma floor_half_eq_zero : ⌊(1 / 2 : ℚ)⌋ = 0 :=
  Int.floor_eq_zero_iff.mpr (by constructor <;> norm_num)

lemma jsRound_le (x : ℚ) (n : ℤ) (h : x ≤ (n : ℚ)) : jsRound x ≤ n := by
  unfold jsRound
  calc ⌊x + 1 / 2⌋ ≤ ⌊(n : ℚ) + 1 / 2⌋ := Int.floor_mono (by linarith)
    _ = n := by rw [add_comm, Int.floor_add_int, floor_half_eq_zero, zero_add]

/-- The second stage of `fitResolution`: snapping a dimension `x ≤ 2048` to a
multiple of 8 with a 512 floor yields a multiple of 8 in `[512, 2048]`. -/
lemma snap_props (x : ℚ) (hx : x ≤ 2048) :
    8 ∣ max 512 (jsRound (x / 8) * 8) ∧
    512 ≤ max 512 (jsRound (x / 8) * 8) ∧
    max 512 (jsRound (x / 8) * 8) ≤ 2048 := by
  have h8 : jsRound (x / 8) ≤ 256 := jsRound_le _ 256 (by push_cast; linarith)
  refine ⟨?_, le_max_left _ _, ?_⟩
  · rcases max_choice (512 : ℤ) (jsRound (x / 8) * 8) with h | h <;> rw [h]
    · exact ⟨64, rfl⟩
    · exact Dvd.intro_left _ rfl
  · refine max_le (by norm_num) ?_
    have := mul_le_mul_of_nonneg_right h8 (by norm_num : (0 : ℤ) ≤ 8)
    linarith

/-- Both components of `scaledDims` with `maxDim = 2048` are at most 2048. -/
lemma scaledDims_le (width height : ℕ) (hw : 0 < width) (hh : 0 < height) :
    (scaledDims width height 2048).1 ≤ 2048 ∧ (scaledDims width height 2048).2 ≤ 2048 := by
  have hwq : (0 : ℚ) < (width : ℚ) := by exact_mod_cast hw
  have hhq : (0 : ℚ) < (height : ℚ) := by exact_mod_cast hh
  unfold scaledDims
  by_cases hc : ((2048 : ℕ) : ℚ) < (width : ℚ) ∨ ((2048 : ℕ) : ℚ) < (height : ℚ)
  · simp only [hc, if_true]
    have hwle : (width : ℚ) * min (((2048 : ℕ) : ℚ) / (width : ℚ)) (((2048 : ℕ) : ℚ) / (height : ℚ))
        ≤ ((2048 : ℕ) : ℚ) := by
      have h1 : min (((2048 : ℕ) : ℚ) / (width : ℚ)) (((2048 : ℕ) : ℚ) / (height : ℚ))
          ≤ ((2048 : ℕ) : ℚ) / (width : ℚ) := min_le_left _ _
      have h2 := mul_le_mul_of_nonneg_left h1 (le_of_lt hwq)
      have h3 : (width : ℚ) * (((2048 : ℕ) : ℚ) / (width : ℚ)) = ((2048 : ℕ) : ℚ) := by
        rw [mul_comm, div_mul_cancel₀ _ (ne_of_gt hwq)]
      rw [h3] at h2
      exact h2
    have hhle : (height : ℚ) * min (((2048 : ℕ) : ℚ) / (width : ℚ)) (((2048 : ℕ) : ℚ) / (height : ℚ))
        ≤ ((2048 : ℕ) : ℚ) := by
      have h1 : min (((2048 : ℕ) : ℚ) / (width : ℚ)) (((2048 : ℕ) : ℚ) / (height : ℚ))
          ≤ ((2048 : ℕ) : ℚ) / (height : ℚ) := min_le_right _ _
      have h2 := mul_le_mul_of_nonneg_left h1 (le_of_lt hhq)
      have h3 : (height : ℚ) * (((2048 : ℕ) : ℚ) / (height : ℚ)) = ((2048 : ℕ) : ℚ) := by
        rw [mul_comm, div_mul_cancel₀ _ (ne_of_gt hhq)]
      rw [h3] at h2
      exact h2
    have hcast : ((2048 : ℕ) : ℚ) = ((2048 : ℤ) : ℚ) := by norm_num
    constructor
    · exact le_trans ((Int.cast_le (R := ℚ)).mpr (jsRound_le _ 2048 (hcast ▸ hwle)))
        (by norm_num)
    · exact le_trans ((Int.cast_le (R := ℚ)).mpr (jsRound_le _ 2048 (hcast ▸ hhle)))
        (by norm_num)
  · simp only [hc, if_false]
    push_neg at hc
    obtain ⟨hcw, hch⟩ := hc
    constructor
    · simpa using hcw
    · simpa using hch

/-- Claim C10 — for every positive integer width and height with
`maxDim = 2048`, `fitResolution` returns a width and a height that are each a
multiple of 8, at least 512, and at most 2048. -/
theorem fitResolution_normalized (width height : ℕ) (hw : 0 < width) (hh : 0 < height) :
    (8 ∣ (fitResolution width height 2048).width ∧
       8 ∣ (fitResolution width height 2048).height) ∧
    (512 ≤ (fitResolution width height 2048).width ∧
       512 ≤ (fitResolution width height 2048).height) ∧
    ((fitResolution width height 2048).width ≤ 2048 ∧
       (fitResolution width height 2048).height ≤ 2048) := by
  obtain ⟨hwle, hhle⟩ := scaledDims_le width height hw hh
  obtain ⟨d1, l1, u1⟩ := snap_props _ hwle
  obtain ⟨d2, l2, u2⟩ := snap_props _ hhle
  exact ⟨⟨d1, d2⟩, ⟨l1, l2⟩, u1, u2⟩

/-- Witness for C10 at the concrete input 3000 × 1500. -/
theorem fitResolution_normalized_witness :
    0 < 3000 ∧ 0 < 1500 ∧
    ((8 ∣ (fitResolution 3000 1500 2048).width ∧
        8 ∣ (fitResolution 3000 1500 2048).height) ∧
      (512 ≤ (fitResolution 3000 1500 2048).width ∧
        512 ≤ (fitResolution 3000 1500 2048).height) ∧
      ((fitResolution 3000 1500 2048).width ≤ 2048 ∧
        (fitResolution 3000 1500 2048).height ≤ 2048)) :=
  ⟨by norm_num, by norm_num, fitResolution_normalized 3000 1500 (by norm_num) (by norm_num)⟩

/-! ## Push protocol and the client WebSocket bridge (ui/core/events.js) -/

/-- The three server-to-client push message tags defined by the protocol
(`{type: "state"|"queue"|"catalog", payload: ...}`). -/
inductive ServerPushType where
  | state
  | queue
  | catalog
deriving DecidableEq, Repr

/-- The wire tag carried by a push message of each type. -/
def pushTypeTag : ServerPushType → String
  | .state => "state"
  | .queue => "queue"
  | .catalog => "catalog"

/-- The in-app events the WebSocket bridge can emit on an incoming push
message: `Events.STATUS_UPDATE` and `Events.QUEUE_UPDATE`.  The bridge in
`ui/core/events.js` defines no catalog event in its dispatch. -/
inductive ClientEvent where
  | statusUpdate
  | queueUpdate
deriving DecidableEq, Repr

/-- Shallow embedding of the `ws.onmessage` dispatch inside `initWebSocket`
(`ui/core/events.js` lines 162-173): a parsed message whose `type` field is
`"state"` emits `Events.STATUS_UPDATE`, one whose `type` is `"queue"` emits
`Events.QUEUE_UPDATE`, and any other tag falls through both branches and emits
nothing. -/
def onmessageDispatch (msgType : String) : Option ClientEvent :=
  if msgType = "state" then some .statusUpdate
  else if msgType = "queue" then some .queueUpdate
  else none

/-- Claim C7 — the protocol defines three push tags, but the client bridge
dispatches only `state` and `queue`; a `catalog` push message is silently
dropped (no in-app event is emitted for it), contradicting the repository's
own documentation, which says the bridge emits a catalog update event. -/
theorem catalog_push_dropped :
    onmessageDispatch (pushTypeTag .catalog) = none ∧
    onmessageDispatch (pushTypeTag .state) = some .statusUpdate ∧
    onmessageDispatch (pushTypeTag .queue) = some .queueUpdate := by
  refine ⟨?_, ?_, ?_⟩ <;> rfl

/-! ## Event bus (`emit`, ui/core/events.js) -/

/-- The observable outcome of one subscriber callback during `emit`: either it
returned normally, or it threw and the exception was caught (and logged) by
`emit` itself. -/
inductive EmitOutcome (ε : Type) where
  | ok : EmitOutcome ε
  | caught (e : ε) : EmitOutcome ε
deriving DecidableEq, Repr

/-- Shallow embedding of `emit(eventName, data)` (`ui/core/events.js` lines
54-64).  The subscriber set for the event is modelled as the list of callbacks
in iteration order; a callback is a function that either returns or throws
(`Except`).  The `forEach` body wraps each call in `try/catch`, so a throwing
callback contributes a `caught` outcome and iteration continues with the next
callback; `emit` itself always returns normally. -/
def emit {α ε : Type} (callbacks : List (α → Except ε Unit)) (data : α) :
    List (EmitOutcome ε) :=
  match callbacks with
  | [] => []
  | cb :: rest =>
    match cb data with
    | .ok _ => .ok :: emit rest data
    | .error e => .caught e :: emit rest data

/-- The outcome `emit` records for a single callback invocation. -/
def outcomeOf {ε : Type} : Except ε Unit → EmitOutcome ε
  | .ok _ => .ok
  | .error e => .caught e

/-- Claim C8 — `emit` invokes every currently subscribed callback exactly once
with the event data: the outcome list has one entry per callback, and the
entry at each index is exactly the outcome of applying that index's callback
to `data`.  A thrown exception is recorded as `caught` (it does not escape
`emit`, whose result is a plain list, not an `Except`) and, since every later
index still gets its own outcome, it does not prevent the remaining callbacks
from being invoked. -/
theorem emit_fault_isolation {α ε : Type} (callbacks : List (α → Except ε Unit)) (data : α) :
    (emit callbacks data).length = callbacks.length ∧
    ∀ i : Nat, (emit callbacks data).get? i =
      (callbacks.get? i).map (fun cb => outcomeOf (cb data)) := by
  induction callbacks with
  | nil => exact ⟨rfl, fun i => by cases i <;> rfl⟩
  | cons cb rest ih =>
    cases hcb : cb data with
    | ok u =>
      refine ⟨?_, ?_⟩
      · simp [emit, hcb, ih.1]
      · intro i
        cases i with
        | zero => simp [emit, hcb, outcomeOf]
        | succ n => simpa [emit, hcb] using ih.2 n
    | error e =>
      refine ⟨?_, ?_⟩
      · simp [emit, hcb, ih.1]
      · intro i
        cases i with
        | zero => simp [emit, hcb, outcomeOf]
        | succ n => simpa [emit, hcb] using ih.2 n

/-- A concrete subscriber list whose first callback throws. -/
def emitDemoCallbacks : List (Nat → Except String Unit) :=
  [fun _ => Except.error "boom", fun _ => Except.ok ()]

/-- Witness for C8: with a throwing first callback, the second callback is
still invoked and its outcome recorded. -/
theorem emit_fault_isolation_witness :
    (emit emitDemoCallbacks 0).length = emitDemoCallbacks.length ∧
    (emit emitDemoCallbacks 0).get? 0 = some (EmitOutcome.caught "boom") ∧
    (emit emitDemoCallbacks 0).get? 1 = some EmitOutcome.ok := by
  refine ⟨(emit_fault_isolation emitDemoCallbacks 0).1, ?_, ?_⟩
  · rw [(emit_fault_isolation emitDemoCallbacks 0).2 0]
    rfl
  · rw [(emit_fault_isolation emitDemoCallbacks 0).2 1]
    rfl

/-! ## Generation-mode resolution and the two generation clients -/

/-- The base generation modes. -/
inductive GenMode where
  | text2img
  | img2img
  | inpaint
deriving DecidableEq, Repr

/-- Modelled from the spec: the mode selection of `core/generation.py` (absent
from the repository snapshot; the architecture overview documents it as
"Selects generation mode (txt2img, img2img, inpaint, two-pass)").  The base
mode is a pure function of the presence of a source image and of a mask, with
fixed priority inpaint over img2img over text2img. -/
def resolveBaseMode (hasSourceImage hasMask : Bool) : GenMode :=
  if hasMask then .inpaint
  else if hasSourceImage then .img2img
  else .text2img

/-- A resolved generation mode: the base mode plus the two-pass modifier. -/
structure ResolvedMode where
  base : GenMode
  twoPass : Bool
deriving DecidableEq, Repr

/-- Modelled from the spec: the full mode resolver — a pure function of
`{has_source_image, has_mask, second_pass_enabled}`; two-pass is a modifier on
top of the resolved base mode, not a competing mode. -/
def resolveMode (hasSourceImage hasMask secondPassEnabled : Bool) : ResolvedMode :=
  { base := resolveBaseMode hasSourceImage hasMask, twoPass := secondPassEnabled }

/-- The request fields assembled by the legacy client that are relevant to
mode resolution. -/
structure SendForm where
  second_pass_model : String
  second_pass_mode : String
  image : Bool
  mask : Bool
deriving DecidableEq, Repr

/-- Shallow embedding of the form assembly in `send(endpoint)` (`ui/app.js`
lines 684-708), restricted to the mode-relevant fields: the selected
second-pass model and mode are always appended, but when a source image file
is selected the client overwrites `second_pass_model` with `"None"` (the code
comments that in img2img it ignores the second-pass model selection to
effectively disable it); the mask is only attached when an image is. -/
def sendForm (secondPassModelSel secondPassModeSel : String)
    (selectedImageFile maskBlob : Bool) : SendForm :=
  let base : SendForm :=
    { second_pass_model := secondPassModelSel
      second_pass_mode := secondPassModeSel
      image := false
      mask := false }
  if selectedImageFile then
    { base with second_pass_model := "None", image := true, mask := maskBlob }
  else
    base

/-- The request fields assembled by the rewritten Studio client that are
relevant to mode resolution. -/
structure StudioForm where
  second_pass_model : Option String
  image : Bool
  mask : Bool
deriving DecidableEq, Repr

/-- Shallow embedding of `collectFormData()` from the rewritten Studio client
(`ui/app.js` rewrite, also `renderQueuePanel`'s sibling in the same module):
the second-pass fields are appended exactly when the `second_pass_enabled`
checkbox is checked, independently of whether an image or mask is attached. -/
def collectFormData (secondPassEnabled : Bool) (secondPassModelSel : String)
    (uploadedImage maskBlob : Bool) : StudioForm :=
  { second_pass_model := if secondPassEnabled then some secondPassModelSel else none
    image := uploadedImage
    mask := maskBlob }

/-- Counterexample for C5 as stated: in the legacy client, a request with a
source image selected and a second-pass model chosen ("refiner-xl", i.e.
second pass enabled) is submitted with `second_pass_model = "None"` — the
two-pass modifier is dropped, not kept. -/
theorem second_pass_modifier_dropped :
    (sendForm "refiner-xl" "auto" true false).second_pass_model = "None" ∧
    (sendForm "refiner-xl" "auto" false false).second_pass_model = "refiner-xl" ∧
    "None" ≠ "refiner-xl" := by
  refine ⟨rfl, rfl, ?_⟩
  decide

/-- Claim C5 (amended) — the mode resolver is a pure function of
`{has_source_image, has_mask, second_pass_enabled}` with fixed priority
inpaint over img2img over text2img: a mask always resolves to inpaint, never
plain img2img, and the resolver treats two-pass as a modifier carried
alongside every base mode.  However, the legacy client drops the two-pass
modifier whenever a source image is selected (overwriting the second-pass
model with `"None"`), so only requests without a source image keep it there;
the rewritten Studio client keeps the second-pass fields for every base
mode. -/
theorem mode_resolution_priority (img mask sp : Bool) :
    ((resolveMode img mask sp).base = resolveBaseMode img mask) ∧
    (mask = true → resolveBaseMode img mask = .inpaint) ∧
    (mask = false → img = true → resolveBaseMode img mask = .img2img) ∧
    (mask = false → img = false → resolveBaseMode img mask = .text2img) ∧
    ((resolveMode img mask sp).twoPass = sp) ∧
    (∀ mdl mode, (sendForm mdl mode true mask).second_pass_model = "None") ∧
    (∀ mdl mode, (sendForm mdl mode false mask).second_pass_model = mdl) ∧
    (∀ mdl, (collectFormData sp mdl img mask).second_pass_model =
      if sp then some mdl else none) := by
  refine ⟨rfl, ?_, ?_, ?_, rfl, ?_, ?_, ?_⟩
  · intro h
    simp [resolveBaseMode, h]
  · intro h h2
    simp [resolveBaseMode, h, h2]
  · intro h h2
    simp [resolveBaseMode, h, h2]
  · intro mdl mode
    rfl
  · intro mdl mode
    rfl
  · intro mdl
    rfl

/-- Witness for C5 (amended): a request with image and mask present and
second pass enabled resolves to base mode inpaint. -/
theorem mode_resolution_priority_witness :
    resolveBaseMode true true = GenMode.inpaint ∧
    (resolveMode true true true).twoPass = true :=
  ⟨(mode_resolution_priority true true true).2.1 rfl,
    (mode_resolution_priority true true true).2.2.2.2.1⟩

/-! ## Pipeline manager: second-pass resolution (modelled from the spec) -/

/-- The second-pass resolution modes (`auto`, `force_refiner`,
`force_img2img`). -/
inductive SecondPassMode where
  | auto
  | forceRefiner
  | forceImg2img
deriving DecidableEq, Repr

/-- A checkpoint as seen by second-pass resolution: its name and whether its
declared network configuration satisfies the refiner-specific conditioning
contract (the spec's design notes reduce the runtime inspection to this
capability flag). -/
structure Checkpoint where
  name : String
  refinerConditioning : Bool
deriving DecidableEq, Repr

/-- The two second-pass execution paths. -/
inductive SecondPassPath where
  | refinerContinuation
  | img2imgRepass
deriving DecidableEq, Repr

/-- The pipeline manager's structured errors relevant here. -/
inductive PipelineError where
  | secondPassArchitectureMismatch
deriving DecidableEq, Repr

/-- Device-level side effects of the pipeline manager. -/
inductive PipelineAction where
  | offloadPrimary (modelName : String)
  | loadPrimary (modelName : String)
  | loadSecondPass (modelName : String)
deriving DecidableEq, Repr

/-- Modelled from the spec: second-pass resolution in the pipeline manager
(`core/pipeline.py`, absent from the snapshot).  `auto` picks the path
matching the checkpoint's conditioning contract; `force_refiner` requires the
refiner contract and fails with `SecondPassArchitectureMismatch` otherwise;
`force_img2img` always uses the generic image-to-image path. -/
def resolveSecondPass (mode : SecondPassMode) (ckpt : Checkpoint) :
    Except PipelineError SecondPassPath :=
  match mode with
  | .auto => .ok (if ckpt.refinerConditioning then .refinerContinuation else .img2imgRepass)
  | .forceRefiner =>
    if ckpt.refinerConditioning then .ok .refinerContinuation
    else .error .secondPassArchitectureMismatch
  | .forceImg2img => .ok .img2imgRepass

/-- The load/offload actions needed to make `primary` the resident pipeline,
given the currently resident model (deduplicated: no action if it is already
resident). -/
def acquireActions (resident : Option String) (primary : String) : List PipelineAction :=
  if resident = some primary then []
  else
    (match resident with
      | some r => [.offloadPrimary r]
      | none => []) ++ [.loadPrimary primary]

/-- The terminal outcome of a second-pass job: `completed` with the resolved
path, or `failed` with a structured pipeline error. -/
inductive JobOutcome where
  | completed (path : SecondPassPath)
  | failed (e : PipelineError)
deriving DecidableEq, Repr

/-- Modelled from the spec: executing a job that configures a second-pass
model.  Second-pass resolution runs first; on a mismatch the job ends `failed`
with the structured error before any pipeline load or offload is performed
(the action trace stays empty).  On success the manager acquires the primary
pipeline and loads the second-pass model. -/
def runSecondPassJob (resident : Option String) (primary : String)
    (mode : SecondPassMode) (ckpt : Checkpoint) :
    JobOutcome × List PipelineAction :=
  match resolveSecondPass mode ckpt with
  | .error e => (.failed e, [])
  | .ok path =>
    (.completed path, acquireActions resident primary ++ [.loadSecondPass ckpt.name])

/-- Claim C6 — a `force_refiner` job against a checkpoint lacking the refiner
conditioning contract ends `failed` with `SecondPassArchitectureMismatch`, and
the pipeline performs no load or offload of the primary model (empty action
trace), whatever is currently resident. -/
theorem force_refiner_fail_fast (resident : Option String) (primary : String)
    (ckpt : Checkpoint) (h : ckpt.refinerConditioning = false) :
    runSecondPassJob resident primary .forceRefiner ckpt =
      (.failed .secondPassArchitectureMismatch, []) := by
  simp [runSecondPassJob, resolveSecondPass, h]

/-- Witness for C6 at a concrete non-refiner checkpoint. -/
theorem force_refiner_fail_fast_witness :
    (Checkpoint.mk "generic-img2img-model" false).refinerConditioning = false ∧
    runSecondPassJob (some "base-sdxl") "base-sdxl" .forceRefiner
        (Checkpoint.mk "generic-img2img-model" false) =
      (.failed .secondPassArchitectureMismatch, []) :=
  ⟨rfl, force_refiner_fail_fast (some "base-sdxl") "base-sdxl"
    (Checkpoint.mk "generic-img2img-model" false) rfl⟩

/-! ## Queue-snapshot result application (`applyCompletedQueueResults`, ui/app.js) -/

/-- A job entry as it appears in a queue snapshot's `recent_completed` list:
`job_id` (possibly missing), `status`, `finished_at` (possibly missing, the
code defaults it to 0), and `result.images`. -/
structure QueueJobView where
  job_id : Option String
  status : String
  finished_at : Option ℚ
  result_images : List String
deriving DecidableEq, Repr

/-- The value `job.finished_at || 0` used by the code. -/
def finishedAtOrZero (j : QueueJobView) : ℚ := j.finished_at.getD 0

/-- The client view state threaded through queue updates: the page-load
timestamp `queueViewStartedAt`, the `seenCompletedQueueJobs` set, and the
ordered record of results applied to the preview
(`handleGenerationResult` calls), each as `(job_id, finished_at)`. -/
structure QueueView where
  startedAt : ℚ
  seen : List String
  applied : List (String × ℚ)
deriving DecidableEq, Repr

/-- The filter predicate inside `applyCompletedQueueResults` (`ui/app.js`): a
job passes when its status is `completed`, it has a `job_id` not already in
`seenCompletedQueueJobs`, its `finished_at` (defaulted to 0) is not earlier
than page load, and `result.images` is a non-empty array. -/
def completedFilter (v : QueueView) (j : QueueJobView) : Bool :=
  j.status == "completed" &&
    (match j.job_id with
      | none => false
      | some id => !(v.seen.contains id)) &&
    !(decide (finishedAtOrZero j < v.startedAt)) &&
    !(j.result_images.isEmpty)

/-- The comparator `(a, b) => (a.finished_at || 0) - (b.finished_at || 0)`
passed to `Array.prototype.sort`: ascending `finished_at`. -/
def jobOrder (a b : QueueJobView) : Prop :=
  finishedAtOrZero a ≤ finishedAtOrZero b

instance : DecidableRel jobOrder :=
  fun a b => inferInstanceAs (Decidable (finishedAtOrZero a ≤ finishedAtOrZero b))

instance : IsTotal QueueJobView jobOrder :=
  ⟨fun a b => le_total (finishedAtOrZero a) (finishedAtOrZero b)⟩

instance : IsTrans QueueJobView jobOrder :=
  ⟨fun _ _ _ => le_trans⟩

/-- The `forEach` body of `applyCompletedQueueResults`: add the job id to
`seenCompletedQueueJobs` and apply its result to the preview (recorded in
`applied`). -/
def applyOne (v : QueueView) (j : QueueJobView) : QueueView :=
  { v with
      seen := j.job_id.getD "" :: v.seen
      applied := v.applied ++ [(j.job_id.getD "", finishedAtOrZero j)] }

/-- Shallow embedding of `applyCompletedQueueResults(jobs)` (`ui/app.js`):
filter the snapshot's jobs, sort the survivors ascending by `finished_at`
(`Array.prototype.sort` is a stable sort, modelled by insertion sort), then
apply each in order.  Note the filter is evaluated against the `seen` set as
it was before the call. -/
def applyCompletedQueueResults (v : QueueView) (jobs : List QueueJobView) : QueueView :=
  (List.insertionSort jobOrder (jobs.filter (completedFilter v))).foldl applyOne v

/-- The `(job_id, finished_at)` records a single call appends to `applied`. -/
def newApplied (v : QueueView) (jobs : List QueueJobView) : List (String × ℚ) :=
  (List.insertionSort jobOrder (jobs.filter (completedFilter v))).map
    (fun j => (j.job_id.getD "", finishedAtOrZero j))

/-- The view at page load: empty `seen` set, nothing applied yet. -/
def initialQueueView (startedAt : ℚ) : QueueView :=
  { startedAt := startedAt, seen := [], applied := [] }

/-- What it means for an applied record to be justified by snapshot `u`:
some job of `u` carries that id, is `completed` with a non-empty image list,
and finished no earlier than page load. -/
def appliedFromUpdate (startedAt : ℚ) (u : List QueueJobView) (p : String × ℚ) : Prop :=
  ∃ j ∈ u, j.job_id = some p.1 ∧ j.status = "completed" ∧ j.result_images ≠ [] ∧
    startedAt ≤ finishedAtOrZero j ∧ p.2 = finishedAtOrZero j

lemma foldl_applyOne_startedAt (l : List QueueJobView) (v : QueueView) :
    (l.foldl applyOne v).startedAt = v.startedAt := by
  induction l generalizing v with
  | nil => rfl
  | cons j rest ih => simpa [applyOne] using ih _

lemma foldl_applyOne_applied (l : List QueueJobView) (v : QueueView) :
    (l.foldl applyOne v).applied =
      v.applied ++ l.map (fun j => (j.job_id.getD "", finishedAtOrZero j)) := by
  induction l generalizing v with
  | nil => simp
  | cons j rest ih =>
    simp only [List.foldl_cons, List.map_cons, ih]
    simp [applyOne]

lemma foldl_applyOne_seen_mono (x : String) :
    ∀ (l : List QueueJobView) (v : QueueView), x ∈ v.seen → x ∈ (l.foldl applyOne v).seen := by
  intro l
  induction l with
  | nil => exact fun v hx => hx
  | cons j rest ih =>
    intro v hx
    exact ih _ (List.mem_cons_of_mem _ hx)

lemma foldl_applyOne_seen_new (j : QueueJobView) :
    ∀ (l : List QueueJobView) (v : QueueView), j ∈ l →
      j.job_id.getD "" ∈ (l.foldl applyOne v).seen := by
  intro l
  induction l with
  | nil => intro v h; cases h
  | cons k rest ih =>
    intro v h
    rcases List.mem_cons.mp h with h1 | h1
    · subst h1
      exact foldl_applyOne_seen_mono (j.job_id.getD "") rest (applyOne v j)
        (List.mem_cons_self _ _)
    · exact ih _ h1

lemma applyCompletedQueueResults_applied (v : QueueView) (jobs : List QueueJobView) :
    (applyCompletedQueueResults v jobs).applied = v.applied ++ newApplied v jobs :=
  foldl_applyOne_applied _ _

lemma applyCompletedQueueResults_startedAt (v : QueueView) (jobs : List QueueJobView) :
    (applyCompletedQueueResults v jobs).startedAt = v.startedAt :=
  foldl_applyOne_startedAt _ _

lemma newApplied_sorted (v : QueueView) (jobs : List QueueJobView) :
    List.Pairwise (fun p q : String × ℚ => p.2 ≤ q.2) (newApplied v jobs) := by
  unfold newApplied
  rw [List.pairwise_map]
  exact List.sorted_insertionSort jobOrder _

/-- Unpacking of the filter: every job in the filtered list is a completed,
unseen, post-page-load job with images and a present id. -/
lemma completedFilter_spec (v : QueueView) (j : QueueJobView)
    (h : completedFilter v j = true) :
    j.status = "completed" ∧ (∃ id, j.job_id = some id ∧ id ∉ v.seen) ∧
      v.startedAt ≤ finishedAtOrZero j ∧ j.result_images ≠ [] := by
  unfold completedFilter at h
  simp only [Bool.and_eq_true, Bool.not_eq_true', beq_iff_eq, decide_eq_false_iff_not,
    not_lt, List.isEmpty_eq_false_iff_exists_mem] at h
  obtain ⟨⟨⟨hst, hid⟩, hfin⟩, himg⟩ := h
  refine ⟨hst, ?_, hfin, ?_⟩
  · cases hjid : j.job_id with
    | none => rw [hjid] at hid; cases hid
    | some id =>
      rw [hjid] at hid
      refine ⟨id, rfl, ?_⟩
      simpa [List.contains_iff_exists_mem_beq] using hid
  · rcases himg with ⟨x, hx⟩
    intro hnil
    rw [hnil] at hx
    cases hx

lemma newApplied_mem (v : QueueView) (jobs : List QueueJobView) (p : String × ℚ)
    (hp : p ∈ newApplied v jobs) :
    ∃ j ∈ jobs, j.job_id = some p.1 ∧ j.status = "completed" ∧ j.result_images ≠ [] ∧
      v.startedAt ≤ finishedAtOrZero j ∧ p.2 = finishedAtOrZero j ∧ p.1 ∉ v.seen := by
  unfold newApplied at hp
  rcases List.mem_map.mp hp with ⟨j, hj, hpj⟩
  rw [List.mem_insertionSort] at hj
  rcases List.mem_filter.mp hj with ⟨hjmem, hjf⟩
  obtain ⟨hst, ⟨id, hid, hseen⟩, hfin, himg⟩ := completedFilter_spec v j hjf
  refine ⟨j, hjmem, ?_, hst, himg, hfin, ?_, ?_⟩
  · rw [hid, ← hpj]
    simp [hid]
  · rw [← hpj]
  · rw [← hpj]
    simpa [hid] using hseen

/-- A list of jobs that all have a present `job_id` maps under
`job_id.getD ""` to the same ids as `filterMap job_id`. -/
lemma map_getD_eq_filterMap (l : List QueueJobView)
    (h : ∀ j ∈ l, (j.job_id).isSome) :
    l.map (fun j => j.job_id.getD "") = l.filterMap QueueJobView.job_id := by
  induction l with
  | nil => rfl
  | cons j rest ih =>
    have hj := h j (by simp)
    cases hjid : j.job_id with
    | none => rw [hjid] at hj; cases hj
    | some id =>
      simp only [List.map_cons, List.filterMap_cons, hjid, Option.getD_some]
      rw [ih (fun k hk => h k (by simp [hk]))]

lemma newApplied_nodup (v : QueueView) (jobs : List QueueJobView)
    (h : (jobs.filterMap QueueJobView.job_id).Nodup) :
    ((newApplied v jobs).map Prod.fst).Nodup := by
  unfold newApplied
  rw [List.map_map]
  show ((List.insertionSort jobOrder (jobs.filter (completedFilter v))).map
    (fun j => j.job_id.getD "")).Nodup
  have hids : ∀ j ∈ jobs.filter (completedFilter v), (j.job_id).isSome := by
    intro j hj
    rcases List.mem_filter.mp hj with ⟨_, hjf⟩
    obtain ⟨_, ⟨id, hid, _⟩, _, _⟩ := completedFilter_spec v j hjf
    simp [hid]
  have hperm : List.Perm
      ((List.insertionSort jobOrder (jobs.filter (completedFilter v))).map
        (fun j => j.job_id.getD ""))
      ((jobs.filter (completedFilter v)).map (fun j => j.job_id.getD "")) :=
    (List.perm_insertionSort jobOrder _).map _
  rw [List.Perm.nodup_iff hperm, map_getD_eq_filterMap _ hids]
  exact ((List.filter_sublist _).filterMap _).nodup h

/-- Strengthened induction for folding snapshot updates through
`applyCompletedQueueResults`. -/
lemma fold_apply_inv (startedAt : ℚ) :
    ∀ (updates : List (List QueueJobView)) (v : QueueView),
      v.startedAt = startedAt →
      (∀ u ∈ updates, (u.filterMap QueueJobView.job_id).Nodup) →
      ((v.applied.map Prod.fst).Nodup) →
      (∀ id ∈ v.applied.map Prod.fst, id ∈ v.seen) →
      ((updates.foldl applyCompletedQueueResults v).applied.map Prod.fst).Nodup ∧
        (∀ id ∈ (updates.foldl applyCompletedQueueResults v).applied.map Prod.fst,
          id ∈ (updates.foldl applyCompletedQueueResults v).seen) ∧
        ∀ p ∈ (updates.foldl applyCompletedQueueResults v).applied,
          p ∈ v.applied ∨ ∃ u ∈ updates, appliedFromUpdate startedAt u p := by
  intro updates
  induction updates with
  | nil =>
    intro v hstart hnodup hvnodup hvseen
    exact ⟨hvnodup, hvseen, fun p hp => Or.inl hp⟩
  | cons u rest ih =>
    intro v hstart hnodup hvnodup hvseen
    set v1 := applyCompletedQueueResults v u with hv1
    have hv1start : v1.startedAt = startedAt := by
      rw [hv1, applyCompletedQueueResults_startedAt, hstart]
    have happlied : v1.applied = v.applied ++ newApplied v u :=
      applyCompletedQueueResults_applied v u
    have hnewnodup : ((newApplied v u).map Prod.fst).Nodup :=
      newApplied_nodup v u (hnodup u (by simp))
    have hnew_unseen : ∀ id ∈ (newApplied v u).map Prod.fst, id ∉ v.seen := by
      intro id hid
      rcases List.mem_map.mp hid with ⟨p, hp, hpid⟩
      rcases newApplied_mem v u p hp with ⟨j, _, _, _, _, _, _, hseen⟩
      rw [← hpid]
      exact hseen
    have hv1nodup : (v1.applied.map Prod.fst).Nodup := by
      rw [happlied, List.map_append, List.nodup_append]
      refine ⟨hvnodup, hnewnodup, ?_⟩
      intro id hid hid2
      exact hnew_unseen id hid2 (hvseen id hid)
    have hv1seen : ∀ id ∈ v1.applied.map Prod.fst, id ∈ v1.seen := by
      intro id hid
      rw [happlied, List.map_append, List.mem_append] at hid
      rcases hid with hid | hid
      · exact foldl_applyOne_seen_mono _ _ _ (hvseen id hid)
      · rcases List.mem_map.mp hid with ⟨p, hp, hpid⟩
        rcases List.mem_map.mp hp with ⟨j, hj, hpj⟩
        have : j.job_id.getD "" = id := by rw [← hpid, ← hpj]
        rw [← this]
        exact foldl_applyOne_seen_new _ _ _ hj
    obtain ⟨h1, h2, h3⟩ := ih v1 hv1start (fun w hw => hnodup w (by simp [hw])) hv1nodup hv1seen
    refine ⟨h1, h2, ?_⟩
    intro p hp
    rcases h3 p hp with hp1 | ⟨w, hw, hwp⟩
    · rw [happlied, List.mem_append] at hp1
      rcases hp1 with hp1 | hp1
      · exact Or.inl hp1
      · rcases newApplied_mem v u p hp1 with ⟨j, hj, ha, hb, hc, hd, he, _⟩
        refine Or.inr ⟨u, by simp, j, hj, ha, hb, hc, ?_, he⟩
        rw [← hstart]
        exact hd
    · exact Or.inr ⟨w, by simp [hw], hwp⟩

/-- Claim C9 — across any sequence of queue-snapshot updates (each snapshot
listing any job id at most once), `applyCompletedQueueResults` applies a
result to the preview at most once per `job_id`; every applied record comes
from some snapshot job that was `completed` with a non-empty `result.images`
and `finished_at` not earlier than page load; and within each single update
the selected jobs are applied in ascending `finished_at` order (the appended
segment of `applied` is sorted). -/
theorem apply_completed_at_most_once (startedAt : ℚ) (updates : List (List QueueJobView))
    (hnodup : ∀ u ∈ updates, (u.filterMap QueueJobView.job_id).Nodup) :
    (((updates.foldl applyCompletedQueueResults (initialQueueView startedAt)).applied.map
        Prod.fst).Nodup) ∧
    (∀ p ∈ (updates.foldl applyCompletedQueueResults (initialQueueView startedAt)).applied,
      ∃ u ∈ updates, appliedFromUpdate startedAt u p) ∧
    (∀ (v : QueueView) (jobs : List QueueJobView),
      (applyCompletedQueueResults v jobs).applied = v.applied ++ newApplied v jobs ∧
        List.Pairwise (fun p q : String × ℚ => p.2 ≤ q.2) (newApplied v jobs)) := by
  obtain ⟨h1, _, h3⟩ := fold_apply_inv startedAt updates (initialQueueView startedAt) rfl
    hnodup (by simp [initialQueueView]) (by simp [initialQueueView])
  refine ⟨h1, ?_, ?_⟩
  · intro p hp
    rcases h3 p hp with hp1 | hp1
    · simp [initialQueueView] at hp1
    · exact hp1
  · intro v jobs
    exact ⟨applyCompletedQueueResults_applied v jobs, newApplied_sorted v jobs⟩

/-- A concrete completed snapshot job. -/
def demoCompletedJob : QueueJobView :=
  { job_id := some "job-a", status := "completed", finished_at := some 5,
    result_images := ["outputs/run/img1.png"] }

/-- Witness for C9: one update containing one completed job, with the
snapshot-wellformedness hypothesis discharged concretely. -/
theorem apply_completed_at_most_once_witness :
    (∀ u ∈ [[demoCompletedJob]], (u.filterMap QueueJobView.job_id).Nodup) ∧
    ((([[demoCompletedJob]].foldl applyCompletedQueueResults
        (initialQueueView 0)).applied.map Prod.fst).Nodup) := by
  have h : ∀ u ∈ [[demoCompletedJob]], (u.filterMap QueueJobView.job_id).Nodup := by
    intro u hu
    simp only [List.mem_singleton] at hu
    subst hu
    simp [demoCompletedJob]
  exact ⟨h, (apply_completed_at_most_once 0 [[demoCompletedJob]] h).1⟩

/-! ## Job queue and worker loop (modelled from the spec)

The backend job system (`server/app.py`: `generation_queue`, an
`asyncio.Queue` with `maxsize 32`, plus `job_registry`; `core/worker.py`: the
dedicated async loop that dequeues and runs GPU work with per-job start and
finish hooks) is absent from the repository snapshot.  The transition system
below is modelled from the spec: a bounded FIFO queue, a registry of jobs in
submission order, and a single worker that pops the oldest queued job, marks
it running, suspends at its pipeline-load and inference waits, and finally
marks it completed or failed; jobs still queued may be cancelled, and a
cancelled job is skipped (dequeued straight to the finish hook) rather than
executed.  Interleavings of submissions and cancellations with the worker's
suspension points are arbitrary. -/

/-- Job lifecycle states: `queued → running → {completed | failed |
cancelled}`. -/
inductive JobStatus where
  | queued
  | running
  | completed
  | failed
  | cancelled
deriving DecidableEq, Repr

/-- A registry entry: the job's id and its current lifecycle status. -/
structure Job where
  id : Nat
  status : JobStatus
deriving DecidableEq, Repr

/-- The worker's in-flight suspension points: pipeline load/offload I/O and
the inference-engine wait, then the finishing transition. -/
inductive WorkerStage where
  | acquiringPipeline
  | awaitingInference
  | finishing
deriving DecidableEq, Repr

/-- The single worker is either idle (waiting on the queue) or busy with one
job at one of its suspension points. -/
inductive WorkerPhase where
  | idle
  | busy (jid : Nat) (stage : WorkerStage)
deriving DecidableEq, Repr

/-- The whole job-system state: the registry in submission order, the queue
contents (job ids, FIFO), the ids the worker has popped so far (oldest
first), and the worker phase. -/
structure QueueState where
  registry : List Job
  pending : List Nat
  dequeued : List Nat
  worker : WorkerPhase
deriving DecidableEq, Repr

/-- Modelled from the spec: the fixed queue capacity (`asyncio.Queue`,
`maxsize 32`). -/
def queueCapacity : Nat := 32

/-- Registry lookup by job id. -/
def findJob (s : QueueState) (jid : Nat) : Option Job :=
  s.registry.find? (fun j => j.id == jid)

/-- The status of a job id, if the id is known. -/
def statusOf (s : QueueState) (jid : Nat) : Option JobStatus :=
  (findJob s jid).map Job.status

/-- Set the status of the job with the given id (no-op on unknown ids). -/
def setStatus (s : QueueState) (jid : Nat) (st : JobStatus) : QueueState :=
  { s with registry :=
      s.registry.map (fun j => if j.id == jid then { j with status := st } else j) }

/-- Result of `submit`: accepted with a queue position, or rejected
(`QueueFull`). -/
inductive SubmitResult where
  | accepted (queuePosition : Nat)
  | rejected
deriving DecidableEq, Repr

/-- The ids in the queue whose status is still `queued` (cancelled jobs stay
in the queue until popped but no longer count as waiting). -/
def queuedPending (s : QueueState) : List Nat :=
  s.pending.filter (fun jid => statusOf s jid == some JobStatus.queued)

/-- The number of waiting (queued) jobs. -/
def queuedCount (s : QueueState) : Nat :=
  (queuedPending s).length

/-- Modelled from the spec: `submit(job)` — when the queue is full the
submission is rejected immediately and the state is untouched; otherwise the
job is appended to the registry and the queue in `queued` status and the
caller gets its queue position (ordinal among waiting jobs). -/
def submit (s : QueueState) (jid : Nat) : SubmitResult × QueueState :=
  if queueCapacity ≤ s.pending.length then
    (.rejected, s)
  else
    (.accepted (queuedCount s + 1),
      { s with
          registry := s.registry ++ [{ id := jid, status := JobStatus.queued }]
          pending := s.pending ++ [jid] })

/-- Result of `cancel`. -/
inductive CancelResult where
  | ok
  | alreadyRunning
  | notCancellable
deriving DecidableEq, Repr

/-- Modelled from the spec: `cancel(job_id)` — only jobs still `queued` can
be cancelled; a `running` job is reported as already running and is left
untouched; terminal or unknown jobs are not cancellable. -/
def cancel (s : QueueState) (jid : Nat) : CancelResult × QueueState :=
  match statusOf s jid with
  | some JobStatus.queued => (.ok, setStatus s jid JobStatus.cancelled)
  | some JobStatus.running => (.alreadyRunning, s)
  | _ => (.notCancellable, s)

/-- Index of the first occurrence of an id in a list, if present. -/
def indexInQueue : List Nat → Nat → Option Nat
  | [], _ => none
  | x :: xs, jid => if x == jid then some 0 else (indexInQueue xs jid).map (· + 1)

/-- Modelled from the spec: `queue_position` is computed, not stored — the
1-based ordinal of the job among the still-`queued` jobs in the queue at
query time. -/
def queuePosition (s : QueueState) (jid : Nat) : Option Nat :=
  (indexInQueue (queuedPending s) jid).map (· + 1)

/-- Modelled from the spec: the small-step transition relation of the job
system.
`submitStep` admits a fresh job (the `submit` function decides acceptance);
`cancelStep` runs the `cancel` function; the worker, when idle, pops the head
of the queue — a cancelled head is skipped straight to the finish hook
(`dequeueCancelledStep`), a queued head enters `running` and makes the worker
busy (`dequeueRunStep`); the two suspend steps walk the busy worker through
its suspension points without touching any job; `finishStep` records the
terminal status and frees the worker. -/
inductive Step : QueueState → QueueState → Prop where
  | submitStep (s : QueueState) (jid : Nat) (hfresh : ∀ j ∈ s.registry, j.id ≠ jid) :
      Step s (submit s jid).2
  | cancelStep (s : QueueState) (jid : Nat) :
      Step s (cancel s jid).2
  | dequeueCancelledStep (s : QueueState) (jid : Nat) (rest : List Nat)
      (hp : s.pending = jid :: rest) (hw : s.worker = .idle)
      (hc : statusOf s jid = some JobStatus.cancelled) :
      Step s { s with pending := rest, dequeued := s.dequeued ++ [jid] }
  | dequeueRunStep (s : QueueState) (jid : Nat) (rest : List Nat)
      (hp : s.pending = jid :: rest) (hw : s.worker = .idle)
      (hq : statusOf s jid = some JobStatus.queued) :
      Step s { setStatus s jid JobStatus.running with
                 pending := rest
                 dequeued := s.dequeued ++ [jid]
                 worker := .busy jid .acquiringPipeline }
  | suspendLoadStep (s : QueueState) (jid : Nat)
      (hw : s.worker = .busy jid .acquiringPipeline) :
      Step s { s with worker := .busy jid .awaitingInference }
  | suspendInferStep (s : QueueState) (jid : Nat)
      (hw : s.worker = .busy jid .awaitingInference) :
      Step s { s with worker := .busy jid .finishing }
  | finishStep (s : QueueState) (jid : Nat) (st : JobStatus)
      (hst : st = JobStatus.completed ∨ st = JobStatus.failed)
      (hw : s.worker = .busy jid .finishing) :
      Step s { setStatus s jid st with worker := .idle }

/-- The empty initial state. -/
def initState : QueueState :=
  { registry := [], pending := [], dequeued := [], worker := .idle }

/-- States reachable from the initial state by the transition relation. -/
inductive Reachable : QueueState → Prop where
  | init : Reachable initState
  | step {s t : QueueState} (hs : Reachable s) (hst : Step s t) : Reachable t

lemma setStatus_registry_ids (s : QueueState) (jid : Nat) (st : JobStatus) :
    (setStatus s jid st).registry.map Job.id = s.registry.map Job.id := by
  unfold setStatus
  simp only [List.map_map]
  apply List.map_congr_left
  intro j hj
  by_cases h : j.id = jid <;> simp [h]

lemma setStatus_pending (s : QueueState) (jid : Nat) (st : JobStatus) :
    (setStatus s jid st).pending = s.pending := rfl

lemma setStatus_dequeued (s : QueueState) (jid : Nat) (st : JobStatus) :
    (setStatus s jid st).dequeued = s.dequeued := rfl

lemma setStatus_worker (s : QueueState) (jid : Nat) (st : JobStatus) :
    (setStatus s jid st).worker = s.worker := rfl

lemma statusOf_setStatus (s : QueueState) (jid : Nat) (st : JobStatus) (q : Nat) :
    statusOf (setStatus s jid st) q =
      if q = jid then (statusOf s q).map (fun _ => st) else statusOf s q := by
  have hcomp : ((fun j : Job => j.id == q) ∘
      (fun j => if j.id == jid then { j with status := st } else j)) =
      fun j : Job => j.id == q := by
    funext j
    by_cases h : j.id = jid <;> simp [h]
  unfold statusOf setStatus findJob
  simp only [List.find?_map, hcomp]
  cases hfind : s.registry.find? (fun j => j.id == q) with
  | none => rcases eq_or_ne q jid with h | h <;> simp [h]
  | some j =>
    have hjq : j.id = q := by simpa using List.find?_some hfind
    rcases eq_or_ne q jid with h | h
    · subst h
      simp [hjq]
    · have hne : j.id ≠ jid := by rw [hjq]; exact h
      simp [hne, h]

lemma statusOf_mem_isSome (s : QueueState) (jid : Nat)
    (h : jid ∈ s.registry.map Job.id) : (statusOf s jid).isSome := by
  rcases List.mem_map.mp h with ⟨j, hj, hid⟩
  unfold statusOf findJob
  have hsome : (s.registry.find? (fun j => j.id == jid)).isSome :=
    List.find?_isSome.mpr ⟨j, hj, by simp [hid]⟩
  obtain ⟨j0, hj0⟩ := Option.isSome_iff_exists.mp hsome
  simp [hj0]

lemma statusOf_submit (s : QueueState) (jid : Nat) (q : Nat)
    (hfresh : ∀ j ∈ s.registry, j.id ≠ jid) :
    statusOf (submit s jid).2 q =
      if queueCapacity ≤ s.pending.length then statusOf s q
      else if q = jid then some JobStatus.queued else statusOf s q := by
  unfold submit
  by_cases hful : queueCapacity ≤ s.pending.length
  · simp [hful]
  · simp only [hful, if_false]
    unfold statusOf findJob
    simp only [List.find?_append]
    rcases eq_or_ne q jid with h | h
    · subst h
      have h1 : s.registry.find? (fun j => j.id == q) = none :=
        List.find?_eq_none.mpr (fun j hj => by simpa using hfresh j hj)
      simp [h1]
    · have h2 : (({ id := jid, status := JobStatus.queued } : Job).id == q) = false := by
        simp [Ne.symm h]
      cases hfind : s.registry.find? (fun j => j.id == q) with
      | none => simp [hfind, h2, List.find?, h]
      | some j => simp [hfind, h]

lemma submit_pending_cases (s : QueueState) (jid : Nat) :
    (submit s jid).2.pending = s.pending ∨
      (submit s jid).2.pending = s.pending ++ [jid] := by
  unfold submit
  by_cases hful : queueCapacity ≤ s.pending.length
  · exact Or.inl (by simp [hful])
  · exact Or.inr (by simp [hful])

lemma cancel_pending (s : QueueState) (jid : Nat) :
    (cancel s jid).2.pending = s.pending := by
  unfold cancel
  cases h : statusOf s jid with
  | none => rfl
  | some st => cases st <;> simp [setStatus_pending]

lemma cancel_dequeued (s : QueueState) (jid : Nat) :
    (cancel s jid).2.dequeued = s.dequeued := by
  unfold cancel
  cases h : statusOf s jid with
  | none => rfl
  | some st => cases st <;> simp [setStatus_dequeued]

lemma cancel_worker (s : QueueState) (jid : Nat) :
    (cancel s jid).2.worker = s.worker := by
  unfold cancel
  cases h : statusOf s jid with
  | none => rfl
  | some st => cases st <;> simp [setStatus_worker]

lemma cancel_registry_ids (s : QueueState) (jid : Nat) :
    (cancel s jid).2.registry.map Job.id = s.registry.map Job.id := by
  unfold cancel
  cases h : statusOf s jid with
  | none => rfl
  | some st => cases st <;> simp [setStatus_registry_ids]

lemma statusOf_cancel (s : QueueState) (jid : Nat) (q : Nat) :
    statusOf (cancel s jid).2 q = statusOf s q ∨
      (statusOf (cancel s jid).2 q = some JobStatus.cancelled ∧ q = jid ∧
        statusOf s q = some JobStatus.queued) := by
  unfold cancel
  cases h : statusOf s jid with
  | none => exact Or.inl rfl
  | some st =>
    cases st with
    | queued =>
      rcases eq_or_ne q jid with hq | hq
      · subst hq
        refine Or.inr ⟨?_, rfl, h⟩
        rw [statusOf_setStatus, if_pos rfl, h]
        rfl
      · exact Or.inl (by rw [statusOf_setStatus, if_neg hq])
    | running => exact Or.inl rfl
    | completed => exact Or.inl rfl
    | failed => exact Or.inl rfl
    | cancelled => exact Or.inl rfl

lemma submit_state_full (s : QueueState) (jid : Nat) (h : queueCapacity ≤ s.pending.length) :
    (submit s jid).2 = s := by
  unfold submit
  rw [if_pos h]

lemma submit_state_not_full (s : QueueState) (jid : Nat)
    (h : ¬ queueCapacity ≤ s.pending.length) :
    (submit s jid).2 =
      { s with
          registry := s.registry ++ [{ id := jid, status := JobStatus.queued }]
          pending := s.pending ++ [jid] } := by
  unfold submit
  rw [if_neg h]

lemma mem_setStatus_registry (s : QueueState) (jid : Nat) (st : JobStatus) (j' : Job)
    (hj' : j' ∈ (setStatus s jid st).registry) :
    (∃ j ∈ s.registry, j.id = jid ∧ j' = { j with status := st }) ∨
      (j' ∈ s.registry ∧ j'.id ≠ jid) := by
  unfold setStatus at hj'
  rcases List.mem_map.mp hj' with ⟨j, hj, hj2⟩
  by_cases h : j.id = jid
  · exact Or.inl ⟨j, hj, h, by rw [← hj2]; simp [h]⟩
  · refine Or.inr ⟨?_, ?_⟩
    · rw [← hj2]
      simpa [h] using hj
    · rw [← hj2]
      simp [h]

/-- The single-worker invariant: when the worker is idle no job is running;
when it is busy with a job only that job can be running, and that job has
already been dequeued. -/
def WorkerOk (s : QueueState) : Prop :=
  (s.worker = .idle → ∀ j ∈ s.registry, j.status ≠ JobStatus.running) ∧
  (∀ jid stage, s.worker = .busy jid stage →
    (∀ j ∈ s.registry, j.status = JobStatus.running → j.id = jid) ∧ jid ∈ s.dequeued)

/-- Every id still in the queue belongs to a job that is `queued` or
`cancelled` (never running or otherwise terminal). -/
def PendingOk (s : QueueState) : Prop :=
  ∀ jid ∈ s.pending,
    statusOf s jid = some JobStatus.queued ∨ statusOf s jid = some JobStatus.cancelled

/-- The reachable-state invariant of the job system: registry ids are
distinct, the dequeue history followed by the queue contents is exactly the
submission order, and the worker and queue are well formed. -/
def Inv (s : QueueState) : Prop :=
  (s.registry.map Job.id).Nodup ∧
  s.dequeued ++ s.pending = s.registry.map Job.id ∧
  WorkerOk s ∧ PendingOk s

lemma Inv.pending_nodup {s : QueueState} (hinv : Inv s) : s.pending.Nodup := by
  have h : (s.dequeued ++ s.pending).Nodup := hinv.2.1 ▸ hinv.1
  exact (List.nodup_append.mp h).2.1

lemma Inv.dequeued_disjoint {s : QueueState} (hinv : Inv s) :
    ∀ x ∈ s.dequeued, x ∉ s.pending := by
  have h : (s.dequeued ++ s.pending).Nodup := hinv.2.1 ▸ hinv.1
  exact (List.nodup_append.mp h).2.2

lemma step_inv {s t : QueueState} (hinv : Inv s) (hst : Step s t) : Inv t := by
  obtain ⟨hnodup, hsplit, hworker, hpending⟩ := hinv
  cases hst with
  | submitStep jid hfresh =>
    by_cases hful : queueCapacity ≤ s.pending.length
    · rw [submit_state_full _ _ hful]
      exact ⟨hnodup, hsplit, hworker, hpending⟩
    · have hstatus : ∀ q, statusOf (submit s jid).2 q =
          if q = jid then some JobStatus.queued else statusOf s q := by
        intro q
        rw [statusOf_submit s jid q hfresh, if_neg hful]
      have hjid_not : jid ∉ s.registry.map Job.id := by
        intro hmem
        rcases List.mem_map.mp hmem with ⟨j, hj, hid⟩
        exact hfresh j hj hid
      have hpend : (submit s jid).2.pending = s.pending ++ [jid] := by
        rw [submit_state_not_full _ _ hful]
      have hreg : (submit s jid).2.registry =
          s.registry ++ [{ id := jid, status := JobStatus.queued }] := by
        rw [submit_state_not_full _ _ hful]
      have hdeq : (submit s jid).2.dequeued = s.dequeued := by
        rw [submit_state_not_full _ _ hful]
      have hwk : (submit s jid).2.worker = s.worker := by
        rw [submit_state_not_full _ _ hful]
      refine ⟨?_, ?_, ⟨?_, ?_⟩, ?_⟩
      · rw [hreg, List.map_append]
        rw [List.nodup_append]
        refine ⟨hnodup, by simp, ?_⟩
        intro x hx hx2
        simp only [List.map_cons, List.map_nil, List.mem_singleton] at hx2
        subst hx2
        exact hjid_not hx
      · rw [hreg, hdeq, hpend, List.map_append, ← List.append_assoc, hsplit]
        simp
      · rw [hwk, hreg]
        intro hw j hj
        rcases List.mem_append.mp hj with hj | hj
        · exact hworker.1 hw j hj
        · simp only [List.mem_singleton] at hj
          subst hj
          simp
      · rw [hwk, hreg, hdeq]
        intro jid0 stage hw
        obtain ⟨h1, h2⟩ := hworker.2 jid0 stage hw
        refine ⟨?_, h2⟩
        intro j hj hrun
        rcases List.mem_append.mp hj with hj | hj
        · exact h1 j hj hrun
        · simp only [List.mem_singleton] at hj
          subst hj
          simp at hrun
      · intro p hp
        rw [hpend, List.mem_append] at hp
        rw [hstatus p]
        rcases hp with hp | hp
        · have hpne : p ≠ jid := by
            intro he
            subst he
            exact hjid_not (hsplit ▸ List.mem_append_right _ hp)
          rw [if_neg hpne]
          exact hpending p hp
        · simp only [List.mem_singleton] at hp
          subst hp
          rw [if_pos rfl]
          exact Or.inl rfl
  | cancelStep jid =>
    cases hc : statusOf s jid with
    | none =>
      have ht : (cancel s jid).2 = s := by unfold cancel; rw [hc]
      rw [ht]
      exact ⟨hnodup, hsplit, hworker, hpending⟩
    | some st =>
      cases st with
      | queued =>
        have ht : (cancel s jid).2 = setStatus s jid JobStatus.cancelled := by
          unfold cancel; rw [hc]
        rw [ht]
        refine ⟨?_, ?_, ⟨?_, ?_⟩, ?_⟩
        · rw [setStatus_registry_ids]
          exact hnodup
        · rw [setStatus_registry_ids, setStatus_pending, setStatus_dequeued]
          exact hsplit
        · rw [setStatus_worker]
          intro hw j' hj'
          rcases mem_setStatus_registry s jid _ j' hj' with ⟨j, _, _, hj'eq⟩ | ⟨hj', _⟩
          · rw [hj'eq]
            simp
          · exact hworker.1 hw j' hj'
        · rw [setStatus_worker, setStatus_dequeued]
          intro jid0 stage hw
          obtain ⟨h1, h2⟩ := hworker.2 jid0 stage hw
          refine ⟨?_, h2⟩
          intro j' hj' hrun
          rcases mem_setStatus_registry s jid _ j' hj' with ⟨j, _, _, hj'eq⟩ | ⟨hj', _⟩
          · rw [hj'eq] at hrun
            simp at hrun
          · exact h1 j' hj' hrun
        · intro p hp
          rw [setStatus_pending] at hp
          rw [statusOf_setStatus]
          rcases eq_or_ne p jid with hpe | hpe
          · subst hpe
            rw [if_pos rfl, hc]
            exact Or.inr rfl
          · rw [if_neg hpe]
            exact hpending p hp
      | running =>
        have ht : (cancel s jid).2 = s := by unfold cancel; rw [hc]
        rw [ht]; exact ⟨hnodup, hsplit, hworker, hpending⟩
      | completed =>
        have ht : (cancel s jid).2 = s := by unfold cancel; rw [hc]
        rw [ht]; exact ⟨hnodup, hsplit, hworker, hpending⟩
      | failed =>
        have ht : (cancel s jid).2 = s := by unfold cancel; rw [hc]
        rw [ht]; exact ⟨hnodup, hsplit, hworker, hpending⟩
      | cancelled =>
        have ht : (cancel s jid).2 = s := by unfold cancel; rw [hc]
        rw [ht]; exact ⟨hnodup, hsplit, hworker, hpending⟩
  | dequeueCancelledStep jid rest hp hw hc =>
    refine ⟨hnodup, ?_, ⟨?_, ?_⟩, ?_⟩
    · show (s.dequeued ++ [jid]) ++ rest = s.registry.map Job.id
      rw [List.append_assoc, List.singleton_append, ← hp]
      exact hsplit
    · intro _ j hj
      exact hworker.1 hw j hj
    · intro jid0 stage hw0
      simp only [hw] at hw0
      cases hw0
    · intro p hp2
      exact hpending p (by rw [hp]; exact List.mem_cons_of_mem _ hp2)
  | dequeueRunStep jid rest hp hw hq =>
    have hpnd : s.pending.Nodup := Inv.pending_nodup ⟨hnodup, hsplit, hworker, hpending⟩
    have hjid_rest : jid ∉ rest := by
      rw [hp] at hpnd
      exact (List.nodup_cons.mp hpnd).1
    refine ⟨?_, ?_, ⟨?_, ?_⟩, ?_⟩
    · show ((setStatus s jid JobStatus.running).registry.map Job.id).Nodup
      rw [setStatus_registry_ids]
      exact hnodup
    · show (s.dequeued ++ [jid]) ++ rest =
        (setStatus s jid JobStatus.running).registry.map Job.id
      rw [setStatus_registry_ids, List.append_assoc, List.singleton_append, ← hp]
      exact hsplit
    · intro hw0
      simp at hw0
    · intro jid0 stage hw0
      simp only [WorkerPhase.busy.injEq] at hw0
      obtain ⟨hj0, _⟩ := hw0
      subst hj0
      constructor
      · intro j' hj' hrun
        rcases mem_setStatus_registry s jid _ j' hj' with ⟨j, _, hid, hj'eq⟩ | ⟨hj', _⟩
        · rw [hj'eq]
          exact hid
        · exact absurd hrun (hworker.1 hw j' hj')
      · exact List.mem_append_right _ (by simp)
    · intro p hp2
      have hpmem : p ∈ s.pending := by rw [hp]; exact List.mem_cons_of_mem _ hp2
      have hpne : p ≠ jid := fun he => hjid_rest (he ▸ hp2)
      have heq : statusOf { setStatus s jid JobStatus.running with
          pending := rest
          dequeued := s.dequeued ++ [jid]
          worker := WorkerPhase.busy jid WorkerStage.acquiringPipeline } p =
          statusOf (setStatus s jid JobStatus.running) p := rfl
      rw [heq, statusOf_setStatus, if_neg hpne]
      exact hpending p hpmem
  | suspendLoadStep jid hw =>
    refine ⟨hnodup, hsplit, ⟨?_, ?_⟩, hpending⟩
    · intro hw0
      simp at hw0
    · intro jid0 stage hw0
      simp only [WorkerPhase.busy.injEq] at hw0
      obtain ⟨hj0, _⟩ := hw0
      subst hj0
      exact hworker.2 _ _ hw
  | suspendInferStep jid hw =>
    refine ⟨hnodup, hsplit, ⟨?_, ?_⟩, hpending⟩
    · intro hw0
      simp at hw0
    · intro jid0 stage hw0
      simp only [WorkerPhase.busy.injEq] at hw0
      obtain ⟨hj0, _⟩ := hw0
      subst hj0
      exact hworker.2 _ _ hw
  | finishStep jid st hterm hw =>
    obtain ⟨h1, h2⟩ := hworker.2 jid .finishing hw
    refine ⟨?_, ?_, ⟨?_, ?_⟩, ?_⟩
    · show ((setStatus s jid st).registry.map Job.id).Nodup
      rw [setStatus_registry_ids]
      exact hnodup
    · show (setStatus s jid st).dequeued ++ (setStatus s jid st).pending =
        (setStatus s jid st).registry.map Job.id
      rw [setStatus_registry_ids, setStatus_pending, setStatus_dequeued]
      exact hsplit
    · intro _ j' hj'
      rcases mem_setStatus_registry s jid st j' hj' with ⟨j, _, _, hj'eq⟩ | ⟨hj'mem, hne⟩
      · rw [hj'eq]
        rcases hterm with h | h <;> (subst h; simp)
      · intro hrun
        exact hne (h1 j' hj'mem hrun)
    · intro jid0 stage hw0
      simp at hw0
    · intro p hp
      have hpmem : p ∈ s.pending := hp
      have hpne : p ≠ jid := by
        intro he
        subst he
        exact Inv.dequeued_disjoint ⟨hnodup, hsplit, hworker, hpending⟩ p h2 hpmem
      have heq : statusOf { setStatus s jid st with worker := WorkerPhase.idle } p =
          statusOf (setStatus s jid st) p := rfl
      rw [heq, statusOf_setStatus, if_neg hpne]
      exact hpending p hpmem

/-- Every reachable state satisfies the invariant. -/
lemma reachable_inv {s : QueueState} (h : Reachable s) : Inv s := by
  induction h with
  | init =>
    refine ⟨by simp [initState], by simp [initState], ⟨?_, ?_⟩, ?_⟩
    · intro _ j hj
      simp [initState] at hj
    · intro jid stage hw
      simp [initState] at hw
    · intro p hp
      simp [initState] at hp
  | step hs hst ih => exact step_inv ih hst

lemma nodup_map_all_eq_length_le {l : List Job} {b : Nat}
    (hn : (l.map Job.id).Nodup) (hall : ∀ x ∈ l, x.id = b) : l.length ≤ 1 := by
  cases l with
  | nil => simp
  | cons a tail =>
    cases tail with
    | nil => simp
    | cons c rest =>
      exfalso
      have hac : a.id = b := hall a (by simp)
      have hcc : c.id = b := hall c (by simp)
      have : a.id ∉ (c :: rest).map Job.id := (List.nodup_cons.mp hn).1
      exact this (by simp [hac, hcc])

/-- Claim C1 — single-flight invariant: in every reachable state of the job
system at most one registry job has status `running`.  The worker is the sole
consumer (only an idle worker dequeues) and its suspension points
(pipeline-acquisition wait, inference wait) never admit a second in-flight
job. -/
theorem single_flight (s : QueueState) (h : Reachable s) :
    (s.registry.filter (fun j => j.status == JobStatus.running)).length ≤ 1 := by
  obtain ⟨hnodup, _, hworker, _⟩ := reachable_inv h
  cases hw : s.worker with
  | idle =>
    have hno := hworker.1 hw
    have hfe : s.registry.filter (fun j => j.status == JobStatus.running) = [] := by
      rw [List.filter_eq_nil_iff]
      intro j hj
      simp [hno j hj]
    rw [hfe]
    simp
  | busy jid stage =>
    obtain ⟨h1, _⟩ := hworker.2 jid stage hw
    refine nodup_map_all_eq_length_le (b := jid) ?_ ?_
    · exact List.Nodup.sublist (List.Sublist.map _ (List.filter_sublist _)) hnodup
    · intro x hx
      obtain ⟨hxm, hxp⟩ := List.mem_filter.mp hx
      exact h1 x hxm (by simpa using hxp)

/-- The concrete state reached by submitting job 7 to the empty system. -/
def exSubmitted : QueueState := (submit initState 7).2

/-- The concrete state reached after the worker dequeues job 7 and marks it
running. -/
def exRunning : QueueState :=
  { setStatus exSubmitted 7 JobStatus.running with
      pending := []
      dequeued := [7]
      worker := .busy 7 .acquiringPipeline }

/-- Witness for C1 at a concrete reachable state with one running job. -/
theorem single_flight_witness :
    (exRunning.registry.filter (fun j => j.status == JobStatus.running)).length ≤ 1 :=
  single_flight exRunning
    (Reachable.step
      (Reachable.step Reachable.init
        (Step.submitStep initState 7 (by intro j hj; cases hj)))
      (Step.dequeueRunStep exSubmitted 7 [] (by decide) rfl (by decide)))

lemma indexInQueue_mem : ∀ (l : List Nat) (a i : Nat), indexInQueue l a = some i → a ∈ l := by
  intro l
  induction l with
  | nil => intro a i h; cases h
  | cons x xs ih =>
    intro a i h
    unfold indexInQueue at h
    cases hxb : (x == a) with
    | true =>
      have hxa : x = a := by simpa using hxb
      subst hxa
      exact List.mem_cons_self x xs
    | false =>
      simp only [hxb] at h
      simp only [Bool.false_eq_true, if_false] at h
      rcases Option.map_eq_some'.mp h with ⟨i0, h0, _⟩
      exact List.mem_cons_of_mem x (ih a i0 h0)

lemma indexInQueue_lt_sublist : ∀ (l : List Nat) (a b i j : Nat),
    indexInQueue l a = some i → indexInQueue l b = some j → i < j →
    [a, b].Sublist l := by
  intro l
  induction l with
  | nil => intro a b i j ha hb hij; cases ha
  | cons x xs ih =>
    intro a b i j ha hb hij
    unfold indexInQueue at ha hb
    cases hxa : (x == a) with
    | true =>
      have hxa2 : x = a := by simpa using hxa
      subst hxa2
      cases hxb : (x == b) with
      | true =>
        exfalso
        simp only [hxa] at ha
        simp only [hxb] at hb
        simp only [if_true] at ha hb
        have hi : i = 0 := by cases ha; rfl
        have hj : j = 0 := by cases hb; rfl
        omega
      | false =>
        simp only [hxb] at hb
        simp only [Bool.false_eq_true, if_false] at hb
        rcases Option.map_eq_some'.mp hb with ⟨j0, hb0, _⟩
        have hbmem : b ∈ xs := indexInQueue_mem xs b j0 hb0
        exact List.Sublist.cons₂ x (List.singleton_sublist.mpr hbmem)
    | false =>
      simp only [hxa] at ha
      simp only [Bool.false_eq_true, if_false] at ha
      rcases Option.map_eq_some'.mp ha with ⟨i0, ha0, hieq⟩
      cases hxb : (x == b) with
      | true =>
        exfalso
        simp only [hxb, if_true] at hb
        have hj : j = 0 := by cases hb; rfl
        omega
      | false =>
        simp only [hxb] at hb
        simp only [Bool.false_eq_true, if_false] at hb
        rcases Option.map_eq_some'.mp hb with ⟨j0, hb0, hjeq⟩
        have hij0 : i0 < j0 := by omega
        exact List.Sublist.cons x (ih a b i0 j0 ha0 hb0 hij0)

lemma submit_dequeued (s : QueueState) (jid : Nat) :
    (submit s jid).2.dequeued = s.dequeued := by
  unfold submit
  split <;> rfl

lemma submit_worker (s : QueueState) (jid : Nat) :
    (submit s jid).2.worker = s.worker := by
  unfold submit
  split <;> rfl

/-- Claim C2 — FIFO ordering.  In every reachable state: (1) the dequeue
history followed by the current queue contents is exactly the submission
order, so the worker consumes jobs in exactly the order they were admitted;
(2) any job that newly enters `running` on a step was the head (the oldest
entry) of the queue and was in `queued` status; (3) a dequeue that does not
start the job (the worker stays as it was — the skip path) only happens to a
`cancelled` job; (4) the `queue_position` values reported at query time are
consistent with the queue order (a strictly smaller position means the job
sits strictly earlier in the queue); and (5) no step ever reorders two jobs
that both remain in the queue — positions drift only because jobs ahead
leave. -/
theorem fifo_ordering (s : QueueState) (h : Reachable s) :
    (s.dequeued ++ s.pending = s.registry.map Job.id) ∧
    (∀ t, Step s t → ∀ jid, statusOf s jid ≠ some JobStatus.running →
      statusOf t jid = some JobStatus.running →
      s.pending.head? = some jid ∧ statusOf s jid = some JobStatus.queued) ∧
    (∀ t, Step s t → t.worker = s.worker → ∀ jid,
      t.dequeued = s.dequeued ++ [jid] → statusOf s jid = some JobStatus.cancelled) ∧
    (∀ a b i j, queuePosition s a = some i → queuePosition s b = some j → i < j →
      [a, b].Sublist s.pending) ∧
    (∀ t, Step s t → ∀ a b, [a, b].Sublist s.pending → a ∈ t.pending →
      b ∈ t.pending → [a, b].Sublist t.pending) := by
  have hinv := reachable_inv h
  obtain ⟨hnodup, hsplit, hworker, hpending⟩ := hinv
  refine ⟨hsplit, ?_, ?_, ?_, ?_⟩
  · intro t hst jid hns hrun
    cases hst with
    | submitStep jid0 hfresh =>
      rw [statusOf_submit s jid0 jid hfresh] at hrun
      split_ifs at hrun with h1 h2
      · exact absurd hrun hns
      · cases hrun
      · exact absurd hrun hns
    | cancelStep jid0 =>
      rcases statusOf_cancel s jid0 jid with hsc | ⟨hsc, _, _⟩
      · rw [hsc] at hrun
        exact absurd hrun hns
      · rw [hsc] at hrun
        cases hrun
    | dequeueCancelledStep jid0 rest hp hw hc =>
      exact absurd hrun hns
    | dequeueRunStep jid0 rest hp hw hq =>
      have hrun2 : statusOf (setStatus s jid0 JobStatus.running) jid = some JobStatus.running :=
        hrun
      rw [statusOf_setStatus] at hrun2
      rcases eq_or_ne jid jid0 with he | he
      · subst he
        exact ⟨by rw [hp]; rfl, hq⟩
      · rw [if_neg he] at hrun2
        exact absurd hrun2 hns
    | suspendLoadStep jid0 hw =>
      exact absurd hrun hns
    | suspendInferStep jid0 hw =>
      exact absurd hrun hns
    | finishStep jid0 st hterm hw =>
      have hrun2 : statusOf (setStatus s jid0 st) jid = some JobStatus.running := hrun
      rw [statusOf_setStatus] at hrun2
      rcases eq_or_ne jid jid0 with he | he
      · subst he
        rw [if_pos rfl] at hrun2
        cases hso : statusOf s jid with
        | none => rw [hso] at hrun2; cases hrun2
        | some x =>
          rw [hso] at hrun2
          have hst2 : st = JobStatus.running := by
            simpa using hrun2
          rcases hterm with h' | h' <;> (rw [h'] at hst2; cases hst2)
      · rw [if_neg he] at hrun2
        exact absurd hrun2 hns
  · intro t hst hweq jid hdeq
    cases hst with
    | submitStep jid0 hfresh =>
      rw [submit_dequeued] at hdeq
      have := congrArg List.length hdeq
      simp at this
    | cancelStep jid0 =>
      rw [cancel_dequeued] at hdeq
      have := congrArg List.length hdeq
      simp at this
    | dequeueCancelledStep jid0 rest hp hw hc =>
      have hdeq2 : s.dequeued ++ [jid0] = s.dequeued ++ [jid] := hdeq
      have hj : jid0 = jid := by
        have := List.append_cancel_left hdeq2
        simpa using this
      exact hj ▸ hc
    | dequeueRunStep jid0 rest hp hw hq =>
      exfalso
      have hwb : WorkerPhase.busy jid0 WorkerStage.acquiringPipeline = s.worker := hweq
      rw [hw] at hwb
      cases hwb
    | suspendLoadStep jid0 hw =>
      have hdeq2 : s.dequeued = s.dequeued ++ [jid] := hdeq
      have := congrArg List.length hdeq2
      simp at this
    | suspendInferStep jid0 hw =>
      have hdeq2 : s.dequeued = s.dequeued ++ [jid] := hdeq
      have := congrArg List.length hdeq2
      simp at this
    | finishStep jid0 st hterm hw =>
      have hdeq2 : s.dequeued = s.dequeued ++ [jid] := hdeq
      have := congrArg List.length hdeq2
      simp at this
  · intro a b i j ha hb hij
    rcases Option.map_eq_some'.mp ha with ⟨i0, ha0, hieq⟩
    rcases Option.map_eq_some'.mp hb with ⟨j0, hb0, hjeq⟩
    have hij0 : i0 < j0 := by omega
    exact (indexInQueue_lt_sublist _ a b i0 j0 ha0 hb0 hij0).trans
      (List.filter_sublist _)
  · intro t hst a b hsub ha2 hb2
    have hpnd : s.pending.Nodup := Inv.pending_nodup ⟨hnodup, hsplit, hworker, hpending⟩
    cases hst with
    | submitStep jid0 hfresh =>
      rcases submit_pending_cases s jid0 with hpc | hpc
      · rw [hpc]
        exact hsub
      · rw [hpc]
        exact hsub.trans (List.sublist_append_left _ _)
    | cancelStep jid0 =>
      rw [cancel_pending]
      exact hsub
    | dequeueCancelledStep jid0 rest hp hw hc =>
      have ha3 : a ∈ rest := ha2
      rw [hp] at hsub
      have hpnd2 : (jid0 :: rest).Nodup := hp ▸ hpnd
      cases hsub with
      | cons _ htail => exact htail
      | cons₂ _ htail => exact absurd ha3 (List.nodup_cons.mp hpnd2).1
    | dequeueRunStep jid0 rest hp hw hq =>
      have ha3 : a ∈ rest := ha2
      rw [hp] at hsub
      have hpnd2 : (jid0 :: rest).Nodup := hp ▸ hpnd
      cases hsub with
      | cons _ htail => exact htail
      | cons₂ _ htail => exact absurd ha3 (List.nodup_cons.mp hpnd2).1
    | suspendLoadStep jid0 hw => exact hsub
    | suspendInferStep jid0 hw => exact hsub
    | finishStep jid0 st hterm hw => exact hsub

/-- Witness for C2 at the concrete reachable state `exRunning`. -/
theorem fifo_ordering_witness :
    exRunning.dequeued ++ exRunning.pending = exRunning.registry.map Job.id :=
  (fifo_ordering exRunning
    (Reachable.step
      (Reachable.step Reachable.init
        (Step.submitStep initState 7 (by intro j hj; cases hj)))
      (Step.dequeueRunStep exSubmitted 7 [] (by decide) rfl (by decide)))).1

/-- Claim C3 — backpressure: `submit` accepts with a queue position
(the ordinal among waiting jobs) whenever the queue holds fewer entries than
its capacity of 32, appending the job in `queued` status; when the queue is
at capacity it rejects (`QueueFull`) and the returned state is exactly the
input state — nothing is mutated, and `submit` is a total function, so the
caller is never blocked. -/
theorem submit_backpressure (s : QueueState) (jid : Nat) :
    (s.pending.length < queueCapacity →
      (submit s jid).1 = SubmitResult.accepted (queuedCount s + 1) ∧
      (submit s jid).2.registry =
        s.registry ++ [{ id := jid, status := JobStatus.queued }] ∧
      (submit s jid).2.pending = s.pending ++ [jid] ∧
      (submit s jid).2.dequeued = s.dequeued ∧
      (submit s jid).2.worker = s.worker) ∧
    (queueCapacity ≤ s.pending.length →
      (submit s jid).1 = SubmitResult.rejected ∧ (submit s jid).2 = s) := by
  constructor
  · intro h
    have hn : ¬ queueCapacity ≤ s.pending.length := not_le.mpr h
    unfold submit
    rw [if_neg hn]
    exact ⟨rfl, rfl, rfl, rfl, rfl⟩
  · intro h
    unfold submit
    rw [if_pos h]
    exact ⟨rfl, rfl⟩

/-- A concrete state whose queue is exactly at capacity. -/
def exFull : QueueState :=
  { registry := (List.range 32).map (fun i => { id := i, status := JobStatus.queued })
    pending := List.range 32
    dequeued := []
    worker := .idle }

/-- Witness for C3: acceptance on the empty state and immediate rejection
without mutation on a full queue. -/
theorem submit_backpressure_witness :
    ((submit initState 1).1 = SubmitResult.accepted (queuedCount initState + 1) ∧
      (submit initState 1).2.registry =
        initState.registry ++ [{ id := 1, status := JobStatus.queued }] ∧
      (submit initState 1).2.pending = initState.pending ++ [1] ∧
      (submit initState 1).2.dequeued = initState.dequeued ∧
      (submit initState 1).2.worker = initState.worker) ∧
    ((submit exFull 99).1 = SubmitResult.rejected ∧ (submit exFull 99).2 = exFull) :=
  ⟨(submit_backpressure initState 1).1 (by decide),
    (submit_backpressure exFull 99).2 (by decide)⟩

/-- Claim C4 — cancellation is pre-execution-only: `cancel` succeeds exactly
on `queued` jobs and marks them `cancelled`; on a `running` job it returns an
explicit already-running result and leaves the state untouched, and the
in-flight job can still finish normally with `completed`; and when the worker
dequeues an already-cancelled head it takes the skip transition (straight to
the terminal `on_finish` path) with the job never entering `running`. -/
theorem cancellation_pre_execution (s : QueueState) (jid : Nat) :
    ((cancel s jid).1 = CancelResult.ok ↔ statusOf s jid = some JobStatus.queued) ∧
    (statusOf s jid = some JobStatus.queued →
      statusOf (cancel s jid).2 jid = some JobStatus.cancelled) ∧
    (statusOf s jid = some JobStatus.running →
      (cancel s jid).1 = CancelResult.alreadyRunning ∧ (cancel s jid).2 = s) ∧
    (s.worker = .busy jid .finishing → statusOf s jid = some JobStatus.running →
      Step (cancel s jid).2 { setStatus s jid JobStatus.completed with worker := .idle } ∧
      statusOf { setStatus s jid JobStatus.completed with worker := .idle } jid =
        some JobStatus.completed) ∧
    (∀ rest, s.pending = jid :: rest → s.worker = .idle →
      statusOf s jid = some JobStatus.cancelled →
      Step s { s with pending := rest, dequeued := s.dequeued ++ [jid] } ∧
      statusOf { s with pending := rest, dequeued := s.dequeued ++ [jid] } jid =
        some JobStatus.cancelled) := by
  refine ⟨?_, ?_, ?_, ?_, ?_⟩
  · cases hc : statusOf s jid with
    | none => simp [cancel, hc]
    | some st => cases st <;> simp [cancel, hc]
  · intro hc
    have ht : (cancel s jid).2 = setStatus s jid JobStatus.cancelled := by
      unfold cancel
      rw [hc]
    rw [ht, statusOf_setStatus, if_pos rfl, hc]
    rfl
  · intro hc
    unfold cancel
    rw [hc]
    exact ⟨rfl, rfl⟩
  · intro hwk hc
    have ht : (cancel s jid).2 = s := by
      unfold cancel
      rw [hc]
    refine ⟨?_, ?_⟩
    · rw [ht]
      exact Step.finishStep s jid JobStatus.completed (Or.inl rfl) hwk
    · have heq : statusOf { setStatus s jid JobStatus.completed with worker := .idle } jid =
          statusOf (setStatus s jid JobStatus.completed) jid := rfl
      rw [heq, statusOf_setStatus, if_pos rfl, hc]
      rfl
  · intro rest hpend hwk hc
    refine ⟨Step.dequeueCancelledStep s jid rest hpend hwk hc, ?_⟩
    have heq : statusOf { s with pending := rest, dequeued := s.dequeued ++ [jid] } jid =
        statusOf s jid := rfl
    rw [heq]
    exact hc

/-- Witness for C4 at the concrete state with job 7 queued. -/
theorem cancellation_pre_execution_witness :
    ((cancel exSubmitted 7).1 = CancelResult.ok ↔
      statusOf exSubmitted 7 = some JobStatus.queued) ∧
    statusOf (cancel exSubmitted 7).2 7 = some JobStatus.cancelled :=
  ⟨(cancellation_pre_execution exSubmitted 7).1,
    (cancellation_pre_execution exSubmitted 7).2.1 (by decide)⟩



end WebbDuck
